import Mathlib

/-!
Verification of the stack-tabs decision engine (src/src/extension.ts).

Strings are modelled as lists of characters (JStr).  Host-supplied services
(the micromatch glob matcher, the best-effort document lookup, and the values
produced by the variable producers, which read the process environment and the
editor focus state) are collected in an Env record; the engine's own logic is
translated from the source.  JavaScript tab objects compared by reference
identity correspond to a Nodup list of structurally distinct Tab records.
-/

set_option maxHeartbeats 2000000
set_option maxRecDepth 4000

abbrev JStr := List Char

def js (s : String) : JStr := s.data

/-- JavaScript String.startsWith on the character-list model. -/
def startsWithL : JStr → JStr → Bool
  | _, [] => true
  | [], _ :: _ => false
  | c :: cs, p :: ps => c == p && startsWithL cs ps

/-- Occurrence of a pattern anywhere in a string (used to reason about replace). -/
def containsL : JStr → JStr → Bool
  | [], pat => startsWithL [] pat
  | c :: cs, pat => startsWithL (c :: cs) pat || containsL cs pat

/-- The code points stripped by JavaScript String.prototype.trim: tab, LF, VT,
FF, CR, space, NBSP, Ogham space mark, the en-quad to hair-space range, line
and paragraph separators, narrow NBSP, medium mathematical space, ideographic
space, and the BOM. -/
def isJsWhitespace (c : Char) : Bool :=
  let n := c.toNat
  n == 0x9 || n == 0xa || n == 0xb || n == 0xc || n == 0xd || n == 0x20 ||
    n == 0xa0 || n == 0x1680 || (decide (0x2000 ≤ n) && decide (n ≤ 0x200a)) ||
    n == 0x2028 || n == 0x2029 || n == 0x202f || n == 0x205f || n == 0x3000 ||
    n == 0xfeff

/-- JavaScript String.prototype.trim (whitespace stripped from both ends). -/
def jsTrim (s : JStr) : JStr :=
  ((s.dropWhile isJsWhitespace).reverse.dropWhile isJsWhitespace).reverse

/-- JavaScript String.prototype.replace with a plain-string pattern: replaces
the first occurrence only. -/
def replaceFirst : JStr → JStr → JStr → JStr
  | [], pat, rep => if startsWithL [] pat then rep else []
  | c :: cs, pat, rep =>
    if startsWithL (c :: cs) pat then rep ++ (c :: cs).drop pat.length
    else c :: replaceFirst cs pat rep

/-- GetSubstitution for a string replacement under a pattern with no capture
groups: a dollar pairs with a following dollar (a literal dollar), ampersand
(the matched substring m), backquote (the part b of the subject before the
match) or apostrophe (the part a of the subject after the match); a dollar
before any other character, including group references absent from this
pattern, stays literal. -/
def expandRep (m b a : JStr) : JStr → JStr
  | [] => []
  | ['$'] => ['$']
  | '$' :: c :: rest =>
    if c = '$' then '$' :: expandRep m b a rest
    else if c = '&' then m ++ expandRep m b a rest
    else if c = '\x60' then b ++ expandRep m b a rest
    else if c = '\x27' then a ++ expandRep m b a rest
    else '$' :: c :: expandRep m b a rest
  | c :: rest => c :: expandRep m b a rest

/-- Fuel-indexed replace-all; with fuel at least the string length it performs
the left-to-right non-overlapping global replacement of JavaScript
String.prototype.replace with a global literal pattern: each inserted
replacement is the GetSubstitution expansion of rep against the original
subject (before holds the already-scanned prefix), and replacement text is
never rescanned within one call. -/
def replaceAllFuel : Nat → JStr → JStr → JStr → JStr → JStr
  | _, _, [], _, _ => []
  | 0, _, s, _, _ => s
  | fuel + 1, before, c :: cs, pat, rep =>
    if !pat.isEmpty && startsWithL (c :: cs) pat then
      expandRep pat before ((c :: cs).drop pat.length) rep ++
        replaceAllFuel fuel (before ++ pat) ((c :: cs).drop pat.length) pat rep
    else
      c :: replaceAllFuel fuel (before ++ [c]) cs pat rep

/-- Replace every occurrence of pat in s by rep (one pass, left to right). -/
def replaceAll (s pat rep : JStr) : JStr := replaceAllFuel s.length [] s pat rep

/-- Resolved document data, from the host's best-effort document lookup. -/
structure TabDocument where
  isUntitled : Bool
  languageId : JStr
deriving DecidableEq

/-- The input variants of a vscode.Tab that the engine distinguishes. -/
inductive TabInput where
  | text (uri : JStr)
  | textDiff
  | notebook (uri : JStr)
  | notebookDiff
  | webview
  | terminal
  | custom (uri : JStr)
  | noInput
deriving DecidableEq

/-- The attributes of a vscode.Tab consumed by the engine. -/
structure Tab where
  isActive : Bool
  isPinned : Bool
  isDirty : Bool
  isPreview : Bool
  label : JStr
  input : TabInput
deriving DecidableEq

inductive MoveDirection where
  | left
  | right
  | auto
deriving DecidableEq

/-- The defaultOptions record of TabStacker (optional fields are Option). -/
structure StackOptions where
  blockMoveFilters : List JStr
  direction : Option MoveDirection
  padding : Option Int
  enabled : Option Bool

/-- Host-supplied services: the micromatch glob matcher (subject, pattern),
the getDocument lookup by uri, and the value each variable producer yields in
the current host context (process environment plus focus state). -/
structure Env where
  isMatch : JStr → JStr → Bool
  getDoc : JStr → Option TabDocument
  varVal : JStr → JStr

/-- The keys of the variables table, in source (insertion) order. -/
def variableNames : List JStr :=
  [js "userHome", js "workspaceFolder", js "workspaceFolderBasename", js "file",
   js "fileWorkspaceFolder", js "relativeFile", js "relativeFileDirname", js "fileBasename",
   js "fileBasenameNoExtension", js "fileExtname", js "fileDirname", js "fileDirnameBasename",
   js "cwd", js "pathSeparator", js "/"]

/-- The literal text matched by the regex built from a variable name. -/
def varToken (k : JStr) : JStr := '$' :: '\x7b' :: (k ++ ['\x7d'])

/-- resolveVariables: one global replace per variable name, applied
sequentially in the source's table order; the producer values are given by
the valuation of the Env (they consult host state). -/
def resolveVariables (val : JStr → JStr) (value : JStr) : JStr :=
  variableNames.foldl (fun resolved k => replaceAll resolved (varToken k) (val k)) value

/-- getTabUri: the uri of text, notebook and custom inputs. -/
def getTabUri (t : Tab) : Option JStr :=
  match t.input with
  | .text u => some u
  | .notebook u => some u
  | .custom u => some u
  | _ => none

def isTextInput : TabInput → Bool
  | .text _ => true
  | _ => false

def isTextDiffInput : TabInput → Bool
  | .textDiff => true
  | _ => false

def isNotebookInput : TabInput → Bool
  | .notebook _ => true
  | _ => false

def isNotebookDiffInput : TabInput → Bool
  | .notebookDiff => true
  | _ => false

def isWebviewInput : TabInput → Bool
  | .webview => true
  | _ => false

def isTerminalInput : TabInput → Bool
  | .terminal => true
  | _ => false

/-- The untitled entry of filterMap: (text or notebook input) and the resolved
document's isUntitled (an absent document is falsy). -/
def untitledPred (env : Env) (t : Tab) : Bool :=
  match t.input with
  | .text u => ((env.getDoc u).map TabDocument.isUntitled).getD false
  | .notebook u => ((env.getDoc u).map TabDocument.isUntitled).getD false
  | _ => false

/-- filterMap: the own properties of the filterMap object literal (the fixed
keyword-to-predicate registry).  The JavaScript member access of the source
also traverses Object.prototype; that full lookup is filterMapGet below. -/
def filterMap (env : Env) (f : JStr) : Option (Tab → Bool) :=
  if f = js "pinned" then some (fun t => t.isPinned)
  else if f = js "dirty" then some (fun t => t.isDirty)
  else if f = js "preview" then some (fun t => t.isPreview)
  else if f = js "text" then some (fun t => isTextInput t.input)
  else if f = js "diff" then some (fun t => isTextDiffInput t.input)
  else if f = js "notebook" then some (fun t => isNotebookInput t.input)
  else if f = js "notebook_diff" then some (fun t => isNotebookDiffInput t.input)
  else if f = js "webview" then some (fun t => isWebviewInput t.input)
  else if f = js "terminal" then some (fun t => isTerminalInput t.input)
  else if f = js "untitled" then some (fun t => untitledPred env t)
  else none

/-- The languageId of a text input's resolved document, or empty. -/
def languageIdOf (env : Env) (t : Tab) : JStr :=
  match t.input with
  | .text u => ((env.getDoc u).map TabDocument.languageId).getD (js "")
  | _ => js ""

def matchTitle (env : Env) (t : Tab) (filter : JStr) : Bool :=
  startsWithL filter (js "title:") &&
    env.isMatch t.label (jsTrim (replaceFirst filter (js "title:") []))

def matchPath (env : Env) (t : Tab) (filter : JStr) : Bool :=
  startsWithL filter (js "path:") &&
    env.isMatch ((getTabUri t).getD (js "")) (jsTrim (replaceFirst filter (js "path:") []))

def matchLang (env : Env) (t : Tab) (filter : JStr) : Bool :=
  isTextInput t.input &&
    (startsWithL filter (js "lang:") &&
      env.isMatch (languageIdOf env t) (jsTrim (replaceFirst filter (js "lang:") [])))

/-- filterMapCustom: the ordered list of (prefix string, match function). -/
def filterMapCustom (env : Env) : List (JStr × (Tab → JStr → Bool)) :=
  [(js "title:", matchTitle env), (js "path:", matchPath env), (js "lang:", matchLang env)]

/-- The custom-filter part of one loop iteration of isBlockingPredicate:
if the token carries a recognized custom marker, resolve variables for path:
tokens, look the token up in filterMapCustom by its marker, and run the match.
The resolvedFilters cache of the source stores exactly the deterministic
resolveVariables result for a fixed Env, so it is observationally transparent
and not modelled. -/
def customMatch (env : Env) (tab : Tab) (f : JStr) : Bool :=
  if ((filterMapCustom env).map Prod.fst).any (fun p => startsWithL f p) then
    let rFilter := if startsWithL f (js "path:") then resolveVariables env.varVal f else f
    match (filterMapCustom env).find? (fun cf => startsWithL rFilter cf.1) with
    | some cf => cf.2 tab rFilter
    | none => false
  else false

/-- The token loop of isBlockingPredicate, returning at the first hit. -/
def isBlockingLoop (env : Env) (tab : Tab) : List JStr → Bool
  | [] => false
  | f :: rest =>
    if customMatch env tab f then true
    else
      match filterMap env f with
      | some m => if m tab then true else isBlockingLoop env tab rest
      | none => isBlockingLoop env tab rest

/-- isBlockingPredicate from the TabStacker constructor. -/
def isBlockingPredicate (env : Env) (tab : Tab) (options : StackOptions) : Bool :=
  isBlockingLoop env tab options.blockMoveFilters

/-- What a single token contributes: its custom-filter hit or its registry hit.
Used to state the disjunction property of the loop. -/
def matchesToken (env : Env) (tab : Tab) (f : JStr) : Bool :=
  customMatch env tab f ||
    (match filterMap env f with
     | some m => m tab
     | none => false)

def defaultBlockMoveFilters : List JStr := [js "pinned"]

/-- getBlockMoveFiltersOption, with the externally configured list as input:
keep it if it shares a member with the default set, else substitute the
default set wholesale. -/
def getBlockMoveFiltersOption (configured : List JStr) : List JStr :=
  if configured.any (fun filter => defaultBlockMoveFilters.contains filter) then configured
  else defaultBlockMoveFilters

/-- JavaScript truthiness of the optional numeric padding. -/
def optTruthy : Option Int → Bool
  | none => false
  | some p => p != 0

/-- JavaScript array indexing tabs[currentTabIndex] (undefined when out of range). -/
def tabGet? (tabs : List Tab) (i : Int) : Option Tab :=
  if i < 0 then none else tabs[i.toNat]?

/-- JavaScript Array.prototype.findLast. -/
def jsFindLast (p : α → Bool) (l : List α) : Option α := l.reverse.find? p

/-- blockingTabIndexes: filter the tabs by the predicate and map each kept tab
to its indexOf position in the full array. -/
def blockingTabIndexes (tabs : List Tab) (pred : Tab → StackOptions → Bool)
    (options : StackOptions) : List Nat :=
  (tabs.filter (fun tab => pred tab options)).map (fun tab => tabs.indexOf tab)

/-- getStackPosition: guard on the clicked tab, scan for the nearest blocking
index in the configured direction, apply the padding clamp, and refuse a
negative delta. -/
def getStackPosition (currentTabIndex : Int) (tabs : List Tab)
    (pred : Tab → StackOptions → Bool) (options : StackOptions) : Option Int :=
  match tabGet? tabs currentTabIndex with
  | none => none
  | some t =>
    if pred t options then none
    else
      let filteredIndexes := blockingTabIndexes tabs pred options
      let moveDelta : Int :=
        match options.direction with
        | some MoveDirection.left =>
          let raw : Int :=
            match jsFindLast (fun (i : Nat) => decide ((i : Int) < currentTabIndex)) filteredIndexes with
            | none => ((0 - currentTabIndex).natAbs : Int)
            | some b => currentTabIndex - (b : Int) - 1
          if optTruthy options.padding then max 0 (raw - options.padding.getD 0) else raw
        | some MoveDirection.right =>
          let raw : Int :=
            match filteredIndexes.find? (fun (i : Nat) => decide (currentTabIndex < (i : Int))) with
            | none => (tabs.length : Int) - currentTabIndex - 1
            | some b => (b : Int) - currentTabIndex - 1
          if optTruthy options.padding then max 0 (raw - options.padding.getD 0) else raw
        | _ => -1
      if moveDelta < 0 then none else some moveDelta

/-- Whether the predicate holds at position i of the tab list. -/
def predAt (tabs : List Tab) (pred : Tab → StackOptions → Bool) (options : StackOptions)
    (i : Nat) : Bool :=
  match tabs[i]? with
  | some t => pred t options
  | none => false

/-- A host context with no matcher hits and no resolvable documents. -/
def exEnv : Env := ⟨fun _ _ => false, fun _ => none, fun _ => js ""⟩

def exPinnedTab : Tab := ⟨false, true, false, false, js "a", TabInput.noInput⟩

def exFreeTab : Tab := ⟨false, false, false, false, js "b", TabInput.noInput⟩

def exActiveTab : Tab := ⟨true, false, false, false, js "c", TabInput.noInput⟩

def exTabs : List Tab := [exPinnedTab, exFreeTab, exActiveTab]

def exPinnedTab2 : Tab := ⟨false, true, false, false, js "d", TabInput.noInput⟩

def exTabs2 : List Tab := [exPinnedTab, exFreeTab, exPinnedTab2]

def exOptsAuto : StackOptions := ⟨[js "pinned"], some MoveDirection.auto, none, none⟩

def exOptsLeft : StackOptions := ⟨[js "pinned"], some MoveDirection.left, some 0, none⟩

def exOptsRight : StackOptions := ⟨[js "pinned"], some MoveDirection.right, some 0, none⟩

def exOptsBase : StackOptions := ⟨[js "pinned"], some MoveDirection.left, none, none⟩

/-- A realizable producer valuation: the HOME environment variable holds the
text of the cwd token, and the working directory is /tmp. -/
def exVal : JStr → JStr := fun k =>
  if k = js "userHome" then js "$\x7bcwd\x7d"
  else if k = js "cwd" then js "/tmp"
  else if k = js "pathSeparator" then js "/"
  else if k = js "/" then js "/"
  else []

/-- A producer valuation whose cwd value holds the text of the userHome token
(a directory literally named that way). -/
def exVal2 : JStr → JStr := fun k =>
  if k = js "cwd" then js "$\x7buserHome\x7d"
  else if k = js "pathSeparator" then js "/"
  else if k = js "/" then js "/"
  else []

/-- A producer valuation where the HOME environment variable is the two
characters dollar ampersand. -/
def exVal3 : JStr → JStr := fun k =>
  if k = js "userHome" then js "$&" else js ""

/-- The outcome of one JavaScript member access on the filterMap literal. -/
inductive PropLookup where
  | ownPred (m : Tab → Bool)
  | inheritedBlocksAll
  | inheritedThrows
  | absent

/-- The Object.prototype members whose access yields a truthy callable whose
call (with the undefined this of the strict ES-module code) returns a truthy
value: constructor is Object, and Object applied to a tab returns the tab;
toString with undefined this returns the nonempty tag string. -/
def objectProtoBlockKeys : List JStr := [js "constructor", js "toString"]

/-- The Object.prototype members whose access makes the call throw a
TypeError under the undefined this of the strict ES-module code: the callable
ones coerce the undefined this with ToObject (or, for toLocaleString, invoke
toString on it), and the proto accessor yields the non-callable
Object.prototype itself. -/
def objectProtoThrowKeys : List JStr :=
  [js "toLocaleString", js "valueOf", js "hasOwnProperty", js "isPrototypeOf",
   js "propertyIsEnumerable", js "__defineGetter__", js "__defineSetter__",
   js "__lookupGetter__", js "__lookupSetter__", js "__proto__"]

/-- The JavaScript member access of the source on the filterMap literal: an
own key of the literal yields its predicate, any other key continues into
Object.prototype, and only a key absent there too yields undefined. -/
def filterMapGet (env : Env) (f : JStr) : PropLookup :=
  match filterMap env f with
  | some m => PropLookup.ownPred m
  | none =>
    if objectProtoBlockKeys.contains f then PropLookup.inheritedBlocksAll
    else if objectProtoThrowKeys.contains f then PropLookup.inheritedThrows
    else PropLookup.absent

/-- What one invocation of the token loop can do: return a boolean, or let a
TypeError propagate. -/
inductive JsOutcome where
  | ret (b : Bool)
  | thrown
deriving DecidableEq

/-- The token loop of isBlockingPredicate under the faithful member access:
a custom hit returns true; an own registry predicate is consulted; an
inherited truthy callable whose call returns a truthy value returns true; an
inherited member whose call throws aborts the loop; an absent key is falsy
and is skipped. -/
def isBlockingLoopJs (env : Env) (tab : Tab) : List JStr → JsOutcome
  | [] => JsOutcome.ret false
  | f :: rest =>
    if customMatch env tab f then JsOutcome.ret true
    else
      match filterMapGet env f with
      | PropLookup.ownPred m =>
        if m tab then JsOutcome.ret true else isBlockingLoopJs env tab rest
      | PropLookup.inheritedBlocksAll => JsOutcome.ret true
      | PropLookup.inheritedThrows => JsOutcome.thrown
      | PropLookup.absent => isBlockingLoopJs env tab rest

/-- isBlockingPredicate under the faithful member access. -/
def isBlockingPredicateJs (env : Env) (tab : Tab) (options : StackOptions) : JsOutcome :=
  isBlockingLoopJs env tab options.blockMoveFilters

/-- A token whose member access stays inside the engine: it hits an own
registry key or nothing at all, never an inherited Object.prototype member. -/
def safeToken (env : Env) (f : JStr) : Bool :=
  match filterMapGet env f with
  | PropLookup.ownPred _ => true
  | PropLookup.absent => true
  | _ => false

/-! ## String-replacement lemmas -/

theorem startsWithL_self (l : JStr) : startsWithL l l = true := by
  induction l with
  | nil => rfl
  | cons c cs ih => simp [startsWithL, ih]

theorem replaceAllFuel_nil (fuel : Nat) (before pat rep : JStr) :
    replaceAllFuel fuel before [] pat rep = [] := by
  cases fuel <;> rfl

theorem replaceAllFuel_of_not_contains (pat rep : JStr) :
    ∀ (fuel : Nat) (before s : JStr), s.length ≤ fuel → containsL s pat = false →
      replaceAllFuel fuel before s pat rep = s := by
  intro fuel
  induction fuel with
  | zero =>
    intro before s hs _
    cases s with
    | nil => rfl
    | cons c cs => simp at hs
  | succ n ih =>
    intro before s hs hc
    cases s with
    | nil => rfl
    | cons c cs =>
      rw [containsL] at hc
      have h1 : startsWithL (c :: cs) pat = false := by
        cases h : startsWithL (c :: cs) pat <;> simp [h] at hc ⊢
      have h2 : containsL cs pat = false := by
        cases h : containsL cs pat <;> simp [h] at hc ⊢
      rw [replaceAllFuel, h1]
      simp only [Bool.and_false, Bool.false_eq_true, if_false]
      rw [ih (before ++ [c]) cs (by simpa using Nat.le_of_succ_le_succ hs) h2]

theorem replaceAll_of_not_contains (s pat rep : JStr) (h : containsL s pat = false) :
    replaceAll s pat rep = s :=
  replaceAllFuel_of_not_contains pat rep s.length [] s (Nat.le_refl _) h

theorem replaceAll_self (pat rep : JStr) (h : pat ≠ []) :
    replaceAll pat pat rep = expandRep pat [] [] rep := by
  cases pat with
  | nil => exact absurd rfl h
  | cons c cs =>
    show replaceAllFuel (cs.length + 1) [] (c :: cs) (c :: cs) rep = _
    rw [replaceAllFuel]
    have hcond : (!(c :: cs).isEmpty && startsWithL (c :: cs) (c :: cs)) = true := by
      simp [List.isEmpty, startsWithL_self]
    rw [hcond]
    simp only [if_true]
    rw [List.drop_length, replaceAllFuel_nil, List.append_nil]

theorem varToken_ne_nil (k : JStr) : varToken k ≠ [] := by
  simp [varToken]

theorem foldl_replaceAll_fixed (val : JStr → JStr) :
    ∀ (names : List JStr) (s : JStr),
      (∀ k ∈ names, containsL s (varToken k) = false) →
      names.foldl (fun r k => replaceAll r (varToken k) (val k)) s = s := by
  intro names
  induction names with
  | nil => intro s _; rfl
  | cons k ks ih =>
    intro s h
    rw [List.foldl_cons, replaceAll_of_not_contains s _ _ (h k (List.mem_cons_self k ks))]
    exact ih s (fun q hq => h q (List.mem_cons_of_mem k hq))

theorem variableNames_nodup : variableNames.Nodup := by decide

theorem variableNames_tokenFree :
    ∀ p ∈ variableNames, ∀ k ∈ variableNames, p ≠ k →
      containsL (varToken k) (varToken p) = false := by decide

/-! ## C7: variable resolution -/

/-- C7 counterexample: with the realizable host context exVal (HOME set to the
literal text of the cwd token, working directory /tmp), resolving the single
userHome token substitutes the cwd token text and the LATER cwd pass expands
it again, yielding /tmp instead of leaving the token to appear literally.
This refutes the claim that a substituted value containing a recognized token
is never re-expanded. -/
theorem resolveVariables_reexpansion_cex :
    resolveVariables exVal (varToken (js "userHome")) = js "/tmp" ∧
    resolveVariables exVal (varToken (js "userHome")) ≠ js "$\x7bcwd\x7d" := by
  constructor
  · decide
  · decide

/-- C7 (amended): substitution is a single pass per recognized name, applied
in the fixed producer order of the variables table, and each pass is a
JavaScript global string replace, so what a pass inserts is the
GetSubstitution expansion of the producer value (for the single-token
template, dollar-ampersand is the token text and the before and after parts
are empty).  That inserted expansion is rescanned only by the passes of names
occurring strictly later in the order.  Hence, for the name k placed between
pre and post in the table, if the expansion contains no token of a later
name, it appears unchanged in the result: tokens of earlier names (and of k
itself) are never re-expanded. -/
theorem resolveVariables_single_pass_per_name (val : JStr → JStr) (pre post : List JStr)
    (k : JStr) (hsplit : variableNames = pre ++ k :: post)
    (hpost : ∀ q ∈ post,
      containsL (expandRep (varToken k) [] [] (val k)) (varToken q) = false) :
    resolveVariables val (varToken k) = expandRep (varToken k) [] [] (val k) := by
  have hnd : (pre ++ k :: post).Nodup := by rw [← hsplit]; exact variableNames_nodup
  have hdisj := (List.nodup_append.mp hnd).2.2
  have hkmem : k ∈ variableNames := by
    rw [hsplit]; exact List.mem_append_right _ (List.mem_cons_self _ _)
  have hpre : ∀ p ∈ pre, containsL (varToken k) (varToken p) = false := by
    intro p hp
    have hpmem : p ∈ variableNames := by rw [hsplit]; exact List.mem_append_left _ hp
    have hpk : p ≠ k := by
      intro he
      exact hdisj hp (he ▸ List.mem_cons_self _ _)
    exact variableNames_tokenFree p hpmem k hkmem hpk
  unfold resolveVariables
  rw [hsplit, List.foldl_append, foldl_replaceAll_fixed val pre _ hpre, List.foldl_cons,
    replaceAll_self _ _ (varToken_ne_nil k)]
  exact foldl_replaceAll_fixed val post _ hpost

/-- C7 amended witness: the cwd producer value holds the text of the earlier
userHome token and no replacement escape, so it survives resolution
literally; and a userHome value of dollar ampersand expands to the matched
token text itself, which no later pass touches. -/
theorem resolveVariables_single_pass_per_name_witness :
    resolveVariables exVal2 (varToken (js "cwd")) = js "$\x7buserHome\x7d" ∧
    resolveVariables exVal3 (varToken (js "userHome")) = varToken (js "userHome") := by
  constructor
  · have h := resolveVariables_single_pass_per_name exVal2
      [js "userHome", js "workspaceFolder", js "workspaceFolderBasename", js "file",
       js "fileWorkspaceFolder", js "relativeFile", js "relativeFileDirname", js "fileBasename",
       js "fileBasenameNoExtension", js "fileExtname", js "fileDirname", js "fileDirnameBasename"]
      [js "pathSeparator", js "/"] (js "cwd") (by decide) (by decide)
    exact h.trans (by decide)
  · have h := resolveVariables_single_pass_per_name exVal3 []
      [js "workspaceFolder", js "workspaceFolderBasename", js "file",
       js "fileWorkspaceFolder", js "relativeFile", js "relativeFileDirname", js "fileBasename",
       js "fileBasenameNoExtension", js "fileExtname", js "fileDirname", js "fileDirnameBasename",
       js "cwd", js "pathSeparator", js "/"] (js "userHome") (by decide) (by decide)
    exact h.trans (by decide)

/-! ## Index-list lemmas -/

theorem tabGet?_natCast (tabs : List Tab) (a : Nat) (h : a < tabs.length) :
    tabGet? tabs (a : Int) = some (tabs.get ⟨a, h⟩) := by
  unfold tabGet?
  rw [if_neg (by exact_mod_cast Int.not_lt.mpr (Int.natCast_nonneg a))]
  rw [Int.toNat_natCast, List.getElem?_eq_getElem h, List.get_eq_getElem]

theorem tabGet?_some_bounds {tabs : List Tab} {i : Int} {t : Tab}
    (h : tabGet? tabs i = some t) : 0 ≤ i ∧ i < (tabs.length : Int) := by
  unfold tabGet? at h
  by_cases hi : i < 0
  · rw [if_pos hi] at h; exact absurd h (by simp)
  · rw [if_neg hi] at h
    have hlt : i.toNat < tabs.length := by
      rcases List.getElem?_eq_some.mp h with ⟨hl, _⟩
      exact hl
    constructor
    · exact Int.not_lt.mp hi
    · have := Int.toNat_of_nonneg (Int.not_lt.mp hi)
      omega

theorem predAt_pos (tabs : List Tab) (pred : Tab → StackOptions → Bool)
    (opts : StackOptions) (i : Nat) (h : i < tabs.length) :
    predAt tabs pred opts i = pred (tabs.get ⟨i, h⟩) opts := by
  unfold predAt
  rw [List.getElem?_eq_getElem h, List.get_eq_getElem]

theorem blockingTabIndexes_eq_filter_range (tabs : List Tab)
    (pred : Tab → StackOptions → Bool) (opts : StackOptions) (hnd : tabs.Nodup) :
    blockingTabIndexes tabs pred opts =
      (List.range tabs.length).filter (predAt tabs pred opts) := by
  induction tabs with
  | nil => rfl
  | cons t ts ih =>
    have hts : ts.Nodup := (List.nodup_cons.mp hnd).2
    have htn : t ∉ ts := (List.nodup_cons.mp hnd).1
    unfold blockingTabIndexes
    rw [List.length_cons, List.range_succ_eq_map, List.filter_cons]
    have hmapshift : ∀ l : List Tab, (∀ x ∈ l, x ∈ ts) →
        l.map (fun tab => (t :: ts).indexOf tab) =
          (l.map (fun tab => ts.indexOf tab)).map Nat.succ := by
      intro l hl
      rw [List.map_map]
      apply List.map_congr_left
      intro x hx
      have : x ≠ t := fun he => htn (he ▸ hl x hx)
      exact List.indexOf_cons_ne ts this.symm
    have htail : (ts.filter (fun tab => pred tab opts)).map (fun tab => (t :: ts).indexOf tab) =
        ((List.range ts.length).filter (predAt ts pred opts)).map Nat.succ := by
      rw [hmapshift _ (fun x hx => (List.mem_filter.mp hx).1)]
      unfold blockingTabIndexes at ih
      rw [ih hts]
    have hfiltermap : (List.filter (predAt (t :: ts) pred opts)
          ((List.range ts.length).map Nat.succ)) =
        ((List.range ts.length).filter (predAt ts pred opts)).map Nat.succ := by
      rw [List.filter_map]
      congr 1
      apply List.filter_congr
      intro i _
      show predAt (t :: ts) pred opts (Nat.succ i) = predAt ts pred opts i
      unfold predAt
      rw [List.getElem?_cons_succ]
    have hhead : predAt (t :: ts) pred opts 0 = pred t opts := by
      unfold predAt
      rw [List.getElem?_cons_zero]
    by_cases hp : pred t opts = true
    · rw [if_pos hp, List.filter_cons, hhead, hp]
      simp only [if_true]
      rw [List.map_cons, List.indexOf_cons_self, htail, hfiltermap]
    · have hp' : pred t opts = false := by
        cases h : pred t opts
        · rfl
        · exact absurd h hp
      rw [if_neg (by simp [hp']), List.filter_cons, hhead, hp']
      simp only [Bool.false_eq_true, if_false]
      rw [htail, hfiltermap]

theorem blockingTabIndexes_sorted (tabs : List Tab)
    (pred : Tab → StackOptions → Bool) (opts : StackOptions) (hnd : tabs.Nodup) :
    (blockingTabIndexes tabs pred opts).Pairwise (· < ·) := by
  rw [blockingTabIndexes_eq_filter_range tabs pred opts hnd]
  exact (List.pairwise_lt_range _).sublist (List.filter_sublist _)

theorem mem_filter_range {n : Nat} {q : Nat → Bool} {i : Nat} :
    i ∈ (List.range n).filter q ↔ i < n ∧ q i = true := by
  rw [List.mem_filter, List.mem_range]

/-! ## find? on sorted index lists -/

theorem find?_asc_min (l : List Nat) (a : Int) (hs : l.Pairwise (· < ·)) (x : Nat)
    (hx : x ∈ l) (hxa : a < (x : Int)) (hmin : ∀ y ∈ l, a < (y : Int) → x ≤ y) :
    l.find? (fun (i : Nat) => decide (a < (i : Int))) = some x := by
  induction l with
  | nil => exact absurd hx (List.not_mem_nil x)
  | cons d rest ih =>
    have hrest : ∀ y ∈ rest, d < y := fun y hy => List.rel_of_pairwise_cons hs hy
    by_cases hd : a < (d : Int)
    · have hxd : x = d := by
        have h1 : x ≤ d := hmin d (List.mem_cons_self d rest) hd
        rcases List.mem_cons.mp hx with h | h
        · exact h
        · exact absurd (hrest x h) (by omega)
      rw [List.find?_cons_of_pos _ (by simpa using hd), hxd]
    · have hxrest : x ∈ rest := by
        rcases List.mem_cons.mp hx with h | h
        · exact absurd (h ▸ hxa) hd
        · exact h
      rw [List.find?_cons_of_neg _ (by simpa using hd)]
      exact ih (List.Pairwise.of_cons hs) hxrest
        (fun y hy hya => hmin y (List.mem_cons_of_mem d hy) hya)

theorem find?_desc_max (l : List Nat) (a : Int) (hs : l.Pairwise (fun u v => v < u)) (x : Nat)
    (hx : x ∈ l) (hxa : (x : Int) < a) (hmax : ∀ y ∈ l, (y : Int) < a → y ≤ x) :
    l.find? (fun (i : Nat) => decide ((i : Int) < a)) = some x := by
  induction l with
  | nil => exact absurd hx (List.not_mem_nil x)
  | cons d rest ih =>
    have hrest : ∀ y ∈ rest, y < d := fun y hy => List.rel_of_pairwise_cons hs hy
    by_cases hd : (d : Int) < a
    · have hxd : x = d := by
        have h1 : d ≤ x := hmax d (List.mem_cons_self d rest) hd
        rcases List.mem_cons.mp hx with h | h
        · exact h
        · exact absurd (hrest x h) (by omega)
      rw [List.find?_cons_of_pos _ (by simpa using hd), hxd]
    · have hxrest : x ∈ rest := by
        rcases List.mem_cons.mp hx with h | h
        · exact absurd (h ▸ hxa) hd
        · exact h
      rw [List.find?_cons_of_neg _ (by simpa using hd)]
      exact ih (List.Pairwise.of_cons hs) hxrest
        (fun y hy hya => hmax y (List.mem_cons_of_mem d hy) hya)

theorem jsFindLast_sorted_max (l : List Nat) (a : Int) (hs : l.Pairwise (· < ·)) (x : Nat)
    (hx : x ∈ l) (hxa : (x : Int) < a) (hmax : ∀ y ∈ l, (y : Int) < a → y ≤ x) :
    jsFindLast (fun (i : Nat) => decide ((i : Int) < a)) l = some x := by
  unfold jsFindLast
  apply find?_desc_max _ a _ x (List.mem_reverse.mpr hx) hxa
  · exact fun y hy hya => hmax y (List.mem_reverse.mp hy) hya
  · exact (List.pairwise_reverse).mpr hs

theorem jsFindLast_none {α : Type} (p : α → Bool) (l : List α)
    (h : ∀ y ∈ l, p y = false) : jsFindLast p l = none := by
  unfold jsFindLast
  rw [List.find?_eq_none]
  intro y hy
  rw [h y (List.mem_reverse.mp hy)]
  simp

theorem jsFindLast_some {α : Type} {p : α → Bool} {l : List α} {x : α}
    (h : jsFindLast p l = some x) : p x = true := List.find?_some h

/-! ## getStackPosition computation lemmas -/

theorem optTruthy_none : optTruthy none = false := rfl

theorem optTruthy_some_zero : optTruthy (some 0) = false := rfl

theorem optTruthy_some_ne (p : Int) (h : p ≠ 0) : optTruthy (some p) = true := by
  simp [optTruthy, h]

theorem getStackPosition_left_raw (tabs : List Tab) (pred : Tab → StackOptions → Bool)
    (opts : StackOptions) (a : Nat) (hnd : tabs.Nodup)
    (hdir : opts.direction = some MoveDirection.left)
    (hpad : opts.padding = some 0)
    (ha : a < tabs.length)
    (hact : pred (tabs.get ⟨a, ha⟩) opts = false) :
    getStackPosition (a : Int) tabs pred opts =
      match jsFindLast (fun (i : Nat) => decide ((i : Int) < (a : Int)))
          ((List.range tabs.length).filter (predAt tabs pred opts)) with
      | none => some (a : Int)
      | some b => some ((a : Int) - (b : Int) - 1) := by
  unfold getStackPosition
  rw [tabGet?_natCast tabs a ha, blockingTabIndexes_eq_filter_range tabs pred opts hnd,
    hdir, hpad]
  simp only [hact, Bool.false_eq_true, if_false, optTruthy_some_zero]
  rcases hf : jsFindLast (fun (i : Nat) => decide ((i : Int) < (a : Int)))
      ((List.range tabs.length).filter (predAt tabs pred opts)) with _ | b
  · simp only [hf]
    rw [if_neg (by simp)]
    simp
  · simp only [hf]
    have hb : (b : Int) < (a : Int) := by
      have := jsFindLast_some hf
      exact of_decide_eq_true this
    rw [if_neg (by omega)]

theorem getStackPosition_right_raw (tabs : List Tab) (pred : Tab → StackOptions → Bool)
    (opts : StackOptions) (a : Nat) (hnd : tabs.Nodup)
    (hdir : opts.direction = some MoveDirection.right)
    (hpad : opts.padding = some 0)
    (ha : a < tabs.length)
    (hact : pred (tabs.get ⟨a, ha⟩) opts = false) :
    getStackPosition (a : Int) tabs pred opts =
      match ((List.range tabs.length).filter (predAt tabs pred opts)).find?
          (fun (i : Nat) => decide ((a : Int) < (i : Int))) with
      | none => some ((tabs.length : Int) - (a : Int) - 1)
      | some b => some ((b : Int) - (a : Int) - 1) := by
  unfold getStackPosition
  rw [tabGet?_natCast tabs a ha, blockingTabIndexes_eq_filter_range tabs pred opts hnd,
    hdir, hpad]
  simp only [hact, Bool.false_eq_true, if_false, optTruthy_some_zero]
  rcases hf : ((List.range tabs.length).filter (predAt tabs pred opts)).find?
      (fun (i : Nat) => decide ((a : Int) < (i : Int))) with _ | b
  · simp only [hf]
    rw [if_neg (by omega)]
  · simp only [hf]
    have hb' := List.find?_some hf
    have hb : (a : Int) < (b : Int) := of_decide_eq_true hb'
    rw [if_neg (by omega)]

/-! ## C1, C2: directional scan -/

/-- C1: with direction left and padding 0, for an in-range non-blocking active
index: if no blocking index lies strictly to the left the distance is the
active index itself; if some exists and i is the greatest one, the distance is
activeIndex - i - 1.  (Nodup captures the reference-distinctness of the
JavaScript tab objects, which indexOf relies on.) -/
theorem getStackPosition_left_spec (tabs : List Tab) (pred : Tab → StackOptions → Bool)
    (opts : StackOptions) (a : Nat) (hnd : tabs.Nodup)
    (hdir : opts.direction = some MoveDirection.left)
    (hpad : opts.padding = some 0)
    (ha : a < tabs.length)
    (hact : pred (tabs.get ⟨a, ha⟩) opts = false) :
    ((∀ j (hj : j < tabs.length), j < a → pred (tabs.get ⟨j, hj⟩) opts = false) →
        getStackPosition (a : Int) tabs pred opts = some (a : Int)) ∧
    (∀ i (hi : i < tabs.length), i < a → pred (tabs.get ⟨i, hi⟩) opts = true →
      (∀ j (hj : j < tabs.length), j < a → pred (tabs.get ⟨j, hj⟩) opts = true → j ≤ i) →
        getStackPosition (a : Int) tabs pred opts = some ((a : Int) - (i : Int) - 1)) := by
  have key := getStackPosition_left_raw tabs pred opts a hnd hdir hpad ha hact
  constructor
  · intro hnone
    rw [key]
    have hnoneB : jsFindLast (fun (i : Nat) => decide ((i : Int) < (a : Int)))
        ((List.range tabs.length).filter (predAt tabs pred opts)) = none := by
      apply jsFindLast_none
      intro y hy
      rcases mem_filter_range.mp hy with ⟨hyl, hyq⟩
      rw [predAt_pos tabs pred opts y hyl] at hyq
      by_cases hya : y < a
      · have := hnone y hyl hya
        rw [this] at hyq
        exact absurd hyq (by simp)
      · simp only [decide_eq_false_iff_not]
        omega
    rw [hnoneB]
  · intro i hi hia hib hmax
    rw [key]
    have hsome : jsFindLast (fun (i : Nat) => decide ((i : Int) < (a : Int)))
        ((List.range tabs.length).filter (predAt tabs pred opts)) = some i := by
      apply jsFindLast_sorted_max _ _
        ((List.pairwise_lt_range _).sublist (List.filter_sublist _)) i
      · exact mem_filter_range.mpr ⟨hi, by rw [predAt_pos tabs pred opts i hi]; exact hib⟩
      · exact_mod_cast hia
      · intro y hy hya
        rcases mem_filter_range.mp hy with ⟨hyl, hyq⟩
        rw [predAt_pos tabs pred opts y hyl] at hyq
        exact hmax y hyl (by exact_mod_cast hya) hyq
    rw [hsome]

/-- C1 witness: tabs [pinned, free, active], left, padding 0: the greatest
blocking index below 2 is 0, distance 2 - 0 - 1 = 1. -/
theorem getStackPosition_left_spec_witness :
    getStackPosition 2 exTabs (isBlockingPredicate exEnv) exOptsLeft = some 1 := by
  have h := (getStackPosition_left_spec exTabs (isBlockingPredicate exEnv) exOptsLeft 2
    (by decide) rfl rfl (by decide) (by decide)).2 0 (by decide) (by decide) (by decide)
    (by decide)
  exact h.trans (by decide)

/-- C2: with direction right and padding 0, for an in-range non-blocking
active index: if no blocking index lies strictly to the right the distance is
tabs.length - activeIndex - 1; if some exists and i is the smallest one, the
distance is i - activeIndex - 1. -/
theorem getStackPosition_right_spec (tabs : List Tab) (pred : Tab → StackOptions → Bool)
    (opts : StackOptions) (a : Nat) (hnd : tabs.Nodup)
    (hdir : opts.direction = some MoveDirection.right)
    (hpad : opts.padding = some 0)
    (ha : a < tabs.length)
    (hact : pred (tabs.get ⟨a, ha⟩) opts = false) :
    ((∀ j (hj : j < tabs.length), a < j → pred (tabs.get ⟨j, hj⟩) opts = false) →
        getStackPosition (a : Int) tabs pred opts =
          some ((tabs.length : Int) - (a : Int) - 1)) ∧
    (∀ i (hi : i < tabs.length), a < i → pred (tabs.get ⟨i, hi⟩) opts = true →
      (∀ j (hj : j < tabs.length), a < j → pred (tabs.get ⟨j, hj⟩) opts = true → i ≤ j) →
        getStackPosition (a : Int) tabs pred opts = some ((i : Int) - (a : Int) - 1)) := by
  have key := getStackPosition_right_raw tabs pred opts a hnd hdir hpad ha hact
  constructor
  · intro hnone
    rw [key]
    have hnoneB : ((List.range tabs.length).filter (predAt tabs pred opts)).find?
        (fun (i : Nat) => decide ((a : Int) < (i : Int))) = none := by
      rw [List.find?_eq_none]
      intro y hy
      rcases mem_filter_range.mp hy with ⟨hyl, hyq⟩
      rw [predAt_pos tabs pred opts y hyl] at hyq
      by_cases hya : a < y
      · have := hnone y hyl hya
        rw [this] at hyq
        exact absurd hyq (by simp)
      · simp only [decide_eq_true_eq]
        omega
    rw [hnoneB]
  · intro i hi hia hib hmin
    rw [key]
    have hsome : ((List.range tabs.length).filter (predAt tabs pred opts)).find?
        (fun (i : Nat) => decide ((a : Int) < (i : Int))) = some i := by
      apply find?_asc_min _ _
        ((List.pairwise_lt_range _).sublist (List.filter_sublist _)) i
      · exact mem_filter_range.mpr ⟨hi, by rw [predAt_pos tabs pred opts i hi]; exact hib⟩
      · exact_mod_cast hia
      · intro y hy hya
        rcases mem_filter_range.mp hy with ⟨hyl, hyq⟩
        rw [predAt_pos tabs pred opts y hyl] at hyq
        exact hmin y hyl (by exact_mod_cast hya) hyq
    rw [hsome]

/-- C2 witness: tabs [pinned, free, free], active index 1, right, padding 0:
no blocking index above 1, distance 3 - 1 - 1 = 1. -/
theorem getStackPosition_right_spec_witness :
    getStackPosition 1 exTabs (isBlockingPredicate exEnv) exOptsRight = some 1 := by
  have h := (getStackPosition_right_spec exTabs (isBlockingPredicate exEnv) exOptsRight 1
    (by decide) rfl rfl (by decide) (by decide)).1 (by decide)
  exact h.trans (by decide)

/-! ## C4, C10: guard and direction fallthrough -/

/-- C4: an out-of-range active index, or an active tab satisfying the blocking
predicate, yields no move. -/
theorem getStackPosition_blocked_none (i : Int) (tabs : List Tab)
    (pred : Tab → StackOptions → Bool) (opts : StackOptions)
    (h : i < 0 ∨ (tabs.length : Int) ≤ i ∨
      ∃ t, tabGet? tabs i = some t ∧ pred t opts = true) :
    getStackPosition i tabs pred opts = none := by
  unfold getStackPosition
  split
  · rfl
  · next t ht =>
    have hb := tabGet?_some_bounds ht
    rcases h with h | h | ⟨t', ht', hp⟩
    · omega
    · omega
    · rw [ht] at ht'
      injection ht' with he
      rw [if_pos (by rw [he]; exact hp)]

/-- C4 witness: index 5 is out of range of the three-tab list; index 0 holds
the pinned (blocking) tab. -/
theorem getStackPosition_blocked_none_witness :
    getStackPosition 5 exTabs (isBlockingPredicate exEnv) exOptsLeft = none ∧
    getStackPosition 0 exTabs (isBlockingPredicate exEnv) exOptsLeft = none := by
  constructor
  · exact getStackPosition_blocked_none 5 exTabs (isBlockingPredicate exEnv) exOptsLeft
      (Or.inr (Or.inl (by decide)))
  · exact getStackPosition_blocked_none 0 exTabs (isBlockingPredicate exEnv) exOptsLeft
      (Or.inr (Or.inr ⟨exPinnedTab, by decide, by decide⟩))

/-- C10: a direction that is neither left nor right (auto, or absent) falls
through the switch, leaving the initial -1, which the final guard turns into
no move, regardless of the tabs and the predicate. -/
theorem getStackPosition_dir_other_none (i : Int) (tabs : List Tab)
    (pred : Tab → StackOptions → Bool) (opts : StackOptions)
    (h1 : opts.direction ≠ some MoveDirection.left)
    (h2 : opts.direction ≠ some MoveDirection.right) :
    getStackPosition i tabs pred opts = none := by
  unfold getStackPosition
  split
  · rfl
  · next t ht =>
    by_cases hp : pred t opts = true
    · rw [if_pos hp]
    · rw [if_neg hp]
      rcases hd : opts.direction with _ | d
      · rfl
      · cases d
        · exact absurd hd h1
        · exact absurd hd h2
        · rfl

/-- C10 witness: direction auto yields no move even though the same state with
direction left yields a positive move. -/
theorem getStackPosition_dir_other_none_witness :
    getStackPosition 2 exTabs (isBlockingPredicate exEnv) exOptsAuto = none ∧
    getStackPosition 2 exTabs (isBlockingPredicate exEnv) exOptsBase = some 1 := by
  constructor
  · exact getStackPosition_dir_other_none 2 exTabs (isBlockingPredicate exEnv) exOptsAuto
      (by decide) (by decide)
  · decide

/-! ## C9: blockingTabIndexes -/

/-- C9: on a list of pairwise-distinct tabs, blockingTabIndexes returns
exactly the positions where the predicate holds, in strictly increasing
order. -/
theorem blockingTabIndexes_spec (tabs : List Tab) (pred : Tab → StackOptions → Bool)
    (opts : StackOptions) (hnd : tabs.Nodup) :
    (∀ i : Nat, i ∈ blockingTabIndexes tabs pred opts ↔
      ∃ hi : i < tabs.length, pred (tabs.get ⟨i, hi⟩) opts = true) ∧
    (blockingTabIndexes tabs pred opts).Pairwise (· < ·) := by
  constructor
  · intro i
    rw [blockingTabIndexes_eq_filter_range tabs pred opts hnd, mem_filter_range]
    constructor
    · rintro ⟨hl, hq⟩
      exact ⟨hl, by rw [← predAt_pos tabs pred opts i hl]; exact hq⟩
    · rintro ⟨hl, hq⟩
      exact ⟨hl, by rw [predAt_pos tabs pred opts i hl]; exact hq⟩
  · exact blockingTabIndexes_sorted tabs pred opts hnd

/-- C9 witness: tabs [pinned, free, pinned], pinned filter: indexes [0, 2],
strictly increasing. -/
theorem blockingTabIndexes_spec_witness :
    (blockingTabIndexes exTabs2 (isBlockingPredicate exEnv) exOptsLeft).Pairwise (· < ·) ∧
    blockingTabIndexes exTabs2 (isBlockingPredicate exEnv) exOptsLeft = [0, 2] := by
  constructor
  · exact (blockingTabIndexes_spec exTabs2 (isBlockingPredicate exEnv) exOptsLeft (by decide)).2
  · decide

/-! ## C3: padding clamp -/

/-- C3: for every positive padding p, the result equals the unpadded (raw)
result with max(0, raw - p) applied, identically in both directions and in
both the nearest-blocker and edge-fallback cases, and any returned distance is
nonnegative. -/
theorem getStackPosition_padding_clamp (env : Env) (i : Int) (tabs : List Tab)
    (opts : StackOptions) (p : Int) (hp : 0 < p) :
    getStackPosition i tabs (isBlockingPredicate env) { opts with padding := some p } =
      (getStackPosition i tabs (isBlockingPredicate env) { opts with padding := none }).map
        (fun d => max 0 (d - p)) ∧
    ∀ d, getStackPosition i tabs (isBlockingPredicate env) { opts with padding := some p } =
      some d → 0 ≤ d := by
  have hne : p ≠ 0 := by omega
  have hpred : ∀ (t : Tab) (x : Option Int),
      isBlockingPredicate env t { opts with padding := x } =
        isBlockingLoop env t opts.blockMoveFilters := fun _ _ => rfl
  have hbti : ∀ x : Option Int,
      blockingTabIndexes tabs (isBlockingPredicate env) { opts with padding := x } =
        blockingTabIndexes tabs (isBlockingPredicate env) opts := fun _ => rfl
  have hdirp : ∀ x : Option Int,
      ({ opts with padding := x } : StackOptions).direction = opts.direction := fun _ => rfl
  have hpadp : ∀ x : Option Int,
      ({ opts with padding := x } : StackOptions).padding = x := fun _ => rfl
  have hmain : getStackPosition i tabs (isBlockingPredicate env)
      { opts with padding := some p } =
      (getStackPosition i tabs (isBlockingPredicate env) { opts with padding := none }).map
        (fun d => max 0 (d - p)) := by
    unfold getStackPosition
    rcases ht : tabGet? tabs i with _ | t
    · simp only [ht, Option.map_none']
    · have hbounds := tabGet?_some_bounds ht
      simp only [ht, hpred, hbti, hdirp, hpadp]
      by_cases hb : isBlockingLoop env t opts.blockMoveFilters = true
      · simp only [hb, if_true, Option.map_none']
      · have hb' : isBlockingLoop env t opts.blockMoveFilters = false := by
          cases h : isBlockingLoop env t opts.blockMoveFilters
          · rfl
          · exact absurd h hb
        simp only [hb', Bool.false_eq_true, if_false]
        rcases hdir : opts.direction with _ | d
        · rw [if_pos (by norm_num : (-1 : Int) < 0)]
          rfl
        · cases d
          · rcases hf : jsFindLast
                (fun (j : Nat) => decide ((j : Int) < i))
                (blockingTabIndexes tabs (isBlockingPredicate env) opts) with _ | b
            · simp only [hf, optTruthy_some_ne p hne, optTruthy_none, if_true,
                Bool.false_eq_true, if_false, Option.getD_some]
              rw [if_neg (not_lt.mpr (le_max_left 0 _)),
                if_neg (not_lt.mpr (Int.natCast_nonneg _))]
              simp only [Option.map_some']
            · have hfs := jsFindLast_some hf
              have hblt : (b : Int) < i := of_decide_eq_true hfs
              simp only [hf, optTruthy_some_ne p hne, optTruthy_none, if_true,
                Bool.false_eq_true, if_false, Option.getD_some]
              rw [if_neg (by omega), if_neg (by omega)]
              simp only [Option.map_some']
          · rcases hf : (blockingTabIndexes tabs (isBlockingPredicate env) opts).find?
                (fun (j : Nat) => decide (i < (j : Int))) with _ | b
            · simp only [hf, optTruthy_some_ne p hne, optTruthy_none, if_true,
                Bool.false_eq_true, if_false, Option.getD_some]
              rw [if_neg (by omega), if_neg (by omega)]
              simp only [Option.map_some']
            · have hbgt : i < (b : Int) := by
                have hfs := List.find?_some hf
                exact of_decide_eq_true hfs
              simp only [hf, optTruthy_some_ne p hne, optTruthy_none, if_true,
                Bool.false_eq_true, if_false, Option.getD_some]
              rw [if_neg (by omega), if_neg (by omega)]
              simp only [Option.map_some']
          · rw [if_pos (by norm_num : (-1 : Int) < 0)]
            rfl
  refine ⟨hmain, ?_⟩
  intro d hd
  rw [hmain] at hd
  rcases Option.map_eq_some'.mp hd with ⟨x, _, hx⟩
  rw [← hx]
  exact le_max_left 0 (x - p)

/-- C3 witness: raw distance 1 with padding 2 clamps to 0. -/
theorem getStackPosition_padding_clamp_witness :
    getStackPosition 2 exTabs (isBlockingPredicate exEnv)
        { exOptsBase with padding := some 2 } = some 0 ∧
    getStackPosition 2 exTabs (isBlockingPredicate exEnv)
        { exOptsBase with padding := none } = some 1 := by
  constructor
  · have h := (getStackPosition_padding_clamp exEnv 2 exTabs exOptsBase 2 (by norm_num)).1
    rw [h]
    decide
  · decide

/-! ## C5: default-substitution invariant -/

/-- C5: the effective filter list is the configured one when it shares a
member with the fixed default set, and is the default set wholesale otherwise;
in particular a configured [dirty] yields [pinned]. -/
theorem getBlockMoveFiltersOption_spec :
    (∀ configured : List JStr,
      ((∃ f ∈ configured, f ∈ defaultBlockMoveFilters) →
        getBlockMoveFiltersOption configured = configured) ∧
      ((∀ f ∈ configured, f ∉ defaultBlockMoveFilters) →
        getBlockMoveFiltersOption configured = defaultBlockMoveFilters)) ∧
    getBlockMoveFiltersOption [js "dirty"] = [js "pinned"] := by
  constructor
  · intro configured
    constructor
    · rintro ⟨f, hf, hfd⟩
      have hany : configured.any (fun filter => defaultBlockMoveFilters.contains filter) =
          true := List.any_eq_true.mpr ⟨f, hf, by simpa using hfd⟩
      unfold getBlockMoveFiltersOption
      rw [if_pos hany]
    · intro hno
      have hany : configured.any (fun filter => defaultBlockMoveFilters.contains filter) =
          false := List.any_eq_false.mpr (fun g hg => by simpa using hno g hg)
      unfold getBlockMoveFiltersOption
      rw [if_neg (by rw [hany]; simp)]
  · decide

/-- C5 witness: a configured list sharing the default member is kept; the
dirty-only list is replaced by the default set. -/
theorem getBlockMoveFiltersOption_spec_witness :
    getBlockMoveFiltersOption [js "dirty", js "pinned"] = [js "dirty", js "pinned"] ∧
    getBlockMoveFiltersOption [js "dirty"] = [js "pinned"] := by
  constructor
  · exact (getBlockMoveFiltersOption_spec.1 [js "dirty", js "pinned"]).1
      ⟨js "pinned", by decide, by decide⟩
  · exact getBlockMoveFiltersOption_spec.2

/-! ## C6, C8: the blocking predicate under JavaScript member access -/

theorem isBlockingLoop_eq_any (env : Env) (tab : Tab) :
    ∀ l : List JStr, isBlockingLoop env tab l = l.any (matchesToken env tab) := by
  intro l
  induction l with
  | nil => rfl
  | cons f rest ih =>
    rw [isBlockingLoop, List.any_cons, matchesToken]
    cases hc : customMatch env tab f
    · simp only [Bool.false_eq_true, if_false, Bool.false_or]
      rcases hm : filterMap env f with _ | m
      · simpa using ih
      · cases hmt : m tab
        · simpa [hmt] using ih
        · simp [hmt]
    · simp

theorem filterMapGet_ownPred {env : Env} {f : JStr} {m : Tab → Bool}
    (h : filterMapGet env f = PropLookup.ownPred m) : filterMap env f = some m := by
  unfold filterMapGet at h
  rcases hm : filterMap env f with _ | m'
  · rw [hm] at h
    by_cases hb : objectProtoBlockKeys.contains f = true
    · rw [if_pos hb] at h
      exact absurd h (by simp)
    · rw [if_neg hb] at h
      by_cases ht : objectProtoThrowKeys.contains f = true
      · rw [if_pos ht] at h
        exact absurd h (by simp)
      · rw [if_neg ht] at h
        exact absurd h (by simp)
  · rw [hm] at h
    injection h with he
    rw [he]

theorem filterMapGet_absent {env : Env} {f : JStr}
    (h : filterMapGet env f = PropLookup.absent) : filterMap env f = none := by
  unfold filterMapGet at h
  rcases hm : filterMap env f with _ | m'
  · rfl
  · rw [hm] at h
    exact absurd h (by simp)

theorem isBlockingLoopJs_eq_any (env : Env) (tab : Tab) :
    ∀ l : List JStr, (∀ f ∈ l, safeToken env f = true) →
      isBlockingLoopJs env tab l = JsOutcome.ret (l.any (matchesToken env tab)) := by
  intro l
  induction l with
  | nil => intro _; rfl
  | cons f rest ih =>
    intro hsafe
    have hf := hsafe f (List.mem_cons_self f rest)
    have hrest : ∀ g ∈ rest, safeToken env g = true :=
      fun g hg => hsafe g (List.mem_cons_of_mem f hg)
    rw [isBlockingLoopJs, List.any_cons, matchesToken]
    cases hc : customMatch env tab f
    · simp only [Bool.false_eq_true, if_false, Bool.false_or]
      rcases hg : filterMapGet env f with m | _ | _ | _
      · rw [filterMapGet_ownPred hg]
        cases hmt : m tab
        · simp only [hmt, Bool.false_eq_true, if_false]
          rw [ih hrest]
          simp [hmt]
        · simp [hmt]
      · unfold safeToken at hf
        rw [hg] at hf
        simp at hf
      · unfold safeToken at hf
        rw [hg] at hf
        simp at hf
      · rw [filterMapGet_absent hg, ih hrest]
        simp
    · simp

/-- C6 counterexample: the member access behind each token traverses
Object.prototype, so the token toString classifies a tab as blocking although
no token matches per the engine's own resolution, refuting the stated iff;
and the permuted lists with the proto accessor and pinned give a thrown
TypeError in one order and true in the other, refuting permutation
invariance. -/
theorem isBlockingPredicate_proto_cex :
    isBlockingPredicateJs exEnv exFreeTab ⟨[js "toString"], none, none, none⟩ =
      JsOutcome.ret true ∧
    matchesToken exEnv exFreeTab (js "toString") = false ∧
    isBlockingPredicateJs exEnv exPinnedTab
      ⟨[js "__proto__", js "pinned"], none, none, none⟩ = JsOutcome.thrown ∧
    isBlockingPredicateJs exEnv exPinnedTab
      ⟨[js "pinned", js "__proto__"], none, none, none⟩ = JsOutcome.ret true := by
  refine ⟨by decide, by decide, by decide, by decide⟩

/-- C6 (amended): for token lists whose members each stay inside the engine
(an own registry key, a custom-marked token, or a name absent from
Object.prototype as well), the predicate returns without throwing, true
exactly when some token matches the tab, and any two such lists with the same
membership, in particular permutations and duplications, yield the same
boolean. -/
theorem isBlockingPredicateJs_disjunction (env : Env) (tab : Tab) (opts : StackOptions)
    (hsafe : ∀ f ∈ opts.blockMoveFilters, safeToken env f = true) :
    isBlockingPredicateJs env tab opts =
      JsOutcome.ret (opts.blockMoveFilters.any (matchesToken env tab)) ∧
    (isBlockingPredicateJs env tab opts = JsOutcome.ret true ↔
      ∃ f ∈ opts.blockMoveFilters, matchesToken env tab f = true) ∧
    ∀ l' : List JStr, (∀ f : JStr, f ∈ opts.blockMoveFilters ↔ f ∈ l') →
      isBlockingPredicateJs env tab opts =
        isBlockingPredicateJs env tab { opts with blockMoveFilters := l' } := by
  have h1 : isBlockingPredicateJs env tab opts =
      JsOutcome.ret (opts.blockMoveFilters.any (matchesToken env tab)) :=
    isBlockingLoopJs_eq_any env tab opts.blockMoveFilters hsafe
  refine ⟨h1, ?_, ?_⟩
  · rw [h1]
    constructor
    · intro he
      injection he with hb
      exact List.any_eq_true.mp hb
    · intro hex
      rw [List.any_eq_true.mpr hex]
  · intro l' hmem
    have hsafe' : ∀ f ∈ l', safeToken env f = true :=
      fun f hf => hsafe f ((hmem f).mpr hf)
    have h2 : isBlockingPredicateJs env tab { opts with blockMoveFilters := l' } =
        JsOutcome.ret (l'.any (matchesToken env tab)) :=
      isBlockingLoopJs_eq_any env tab l' hsafe'
    rw [h1, h2]
    have hb : opts.blockMoveFilters.any (matchesToken env tab) =
        l'.any (matchesToken env tab) := by
      apply Bool.eq_iff_iff.mpr
      rw [List.any_eq_true, List.any_eq_true]
      constructor
      · rintro ⟨f, hf, hm⟩
        exact ⟨f, (hmem f).mp hf, hm⟩
      · rintro ⟨f, hf, hm⟩
        exact ⟨f, (hmem f).mpr hf, hm⟩
    rw [hb]

/-- C6 amended witness: reordering and duplicating the safe tokens dirty and
pinned leaves the decision on a pinned tab unchanged and true. -/
theorem isBlockingPredicateJs_disjunction_witness :
    isBlockingPredicateJs exEnv exPinnedTab ⟨[js "dirty", js "pinned"], none, none, none⟩ =
      isBlockingPredicateJs exEnv exPinnedTab
        ⟨[js "pinned", js "dirty", js "dirty"], none, none, none⟩ ∧
    isBlockingPredicateJs exEnv exPinnedTab ⟨[js "dirty", js "pinned"], none, none, none⟩ =
      JsOutcome.ret true := by
  constructor
  · exact (isBlockingPredicateJs_disjunction exEnv exPinnedTab
      ⟨[js "dirty", js "pinned"], none, none, none⟩ (by decide)).2.2
      [js "pinned", js "dirty", js "dirty"]
      (by intro f; simp only [List.mem_cons, List.not_mem_nil, or_false]; tauto)
  · decide

/-- C8: the code at the failing inputs.  The token constructor is not a
registry keyword yet the member access reaches the inherited Object
constructor, whose call returns the tab itself, so a tab matched by no rule
is classified blocking; and the token valueOf reaches an inherited method
whose call with an undefined this throws a TypeError, aborting the loop
before the pinned token that follows it is evaluated. -/
theorem unrecognizedToken_protoLeak :
    isBlockingPredicateJs exEnv exFreeTab ⟨[js "constructor"], none, none, none⟩ =
      JsOutcome.ret true ∧
    isBlockingPredicateJs exEnv exPinnedTab
      ⟨[js "valueOf", js "pinned"], none, none, none⟩ = JsOutcome.thrown := by
  refine ⟨by decide, by decide⟩
